import Mathlib

/-!
Verification of the `roadregex` pattern toolkit (src/roadregex/regex.py).

The repository code is a thin layer over a text-matching engine: a fluent
`RegexBuilder` accumulating pattern-fragment strings, a `Regex` wrapper
normalizing match results into a `Match` record, and a `RegexExtractor`
registry of named patterns.  The engine itself (Python's `re` module) is an
external collaborator; it is modelled here by an executable regex AST, a
fueled backtracking matcher with leftmost-greedy priority, and a
pattern-text parser covering the syntax the repository produces and
registers.  All repository-level functions (`RegexBuilder.*`, `Regex.*`,
`RegexExtractor.*`) are translated directly from the source.
-/

namespace RoadRegex

/-- Text is modelled as a list of characters. -/
abbrev Str := List Char

/-- Character-class item inside `[...]`: a single char, a range, or a
predefined class escape. -/
inductive ClsItem where
  | single (c : Char)
  | range (lo hi : Char)
  | dig | ndig | wrd | nwrd | spc | nspc
  deriving DecidableEq, Repr

/-- One decimal digit, per the engine's ASCII semantics for this model. -/
def isDigitCh (c : Char) : Bool := '0' ≤ c ∧ c ≤ '9'

/-- A word character: letter, digit or underscore. -/
def isWordCh (c : Char) : Bool := c.isAlphanum || c = '_'

/-- A whitespace character. -/
def isSpaceCh (c : Char) : Bool :=
  c = ' ' || c = '\t' || c = '\n' || c = '\r' || c = '\x0b' || c = '\x0c'

/-- Does character `c` fall in class item `it` (no case folding)? -/
def clsItemMatches (it : ClsItem) (c : Char) : Bool :=
  match it with
  | .single d => c = d
  | .range lo hi => lo ≤ c ∧ c ≤ hi
  | .dig => isDigitCh c
  | .ndig => !isDigitCh c
  | .wrd => isWordCh c
  | .nwrd => !isWordCh c
  | .spc => isSpaceCh c
  | .nspc => !isSpaceCh c

/-- Regex abstract syntax (the engine's compiled form). Quantifiers are
expanded at parse time; `star` is the greedy Kleene star. -/
inductive RE where
  | eps
  | ch (c : Char)
  | anyCh
  | cls (neg : Bool) (items : List ClsItem)
  | seq (a b : RE)
  | alt (a b : RE)
  | star (e : RE)
  | group (idx : Nat) (e : RE)
  | startA
  | endA
  deriving DecidableEq, Repr

/-- Character comparison used by the matcher; `ic` is the IGNORECASE flag. -/
def charEq (ic : Bool) (p c : Char) : Bool :=
  p = c || (ic && (p.toLower = c.toLower))

/-- Class membership used by the matcher, honouring IGNORECASE loosely by
also testing the folded character. -/
def clsMatches (ic : Bool) (neg : Bool) (items : List ClsItem) (c : Char) : Bool :=
  let base := items.any (fun it => clsItemMatches it c)
  let folded := ic && (items.any (fun it => clsItemMatches it c.toLower) ||
                       items.any (fun it => clsItemMatches it c.toUpper))
  if neg then !(base || folded) else (base || folded)

/-- Capture store: newest-first association list from group index to span. -/
abbrev Caps := List (Nat × Nat × Nat)

/-- Read the span captured for group `i`, if any. -/
def capGet (caps : Caps) (i : Nat) : Option (Nat × Nat) :=
  (caps.find? (fun p => p.1 = i)).map (fun p => p.2)

/-- Record the span of group `i` (overwriting earlier captures). -/
def capSet (caps : Caps) (i s e : Nat) : Caps := (i, s, e) :: caps

/-- The backtracking matcher.  `mrun fuel ic s re pos caps` returns, in the
engine's priority order (leftmost-greedy, first alternative wins), the list
of `(endPos, captures)` pairs for all ways `re` can match `s` starting at
offset `pos`.  `fuel` bounds recursion depth; every recursive call consumes
one unit, and callers supply fuel ample for the pattern and input at hand.
A greedy star does not repeat a body iteration that consumed no input,
mirroring the engine's no-progress rule for empty repetitions. -/
def mrun : Nat → Bool → Str → RE → Nat → Caps → List (Nat × Caps)
  | 0, _, _, _, _, _ => []
  | n + 1, ic, s, re, pos, caps =>
    match re with
    | .eps => [(pos, caps)]
    | .ch c =>
      match s[pos]? with
      | some x => if charEq ic c x then [(pos + 1, caps)] else []
      | none => []
    | .anyCh =>
      match s[pos]? with
      | some x => if x = '\n' then [] else [(pos + 1, caps)]
      | none => []
    | .cls neg items =>
      match s[pos]? with
      | some x => if clsMatches ic neg items x then [(pos + 1, caps)] else []
      | none => []
    | .seq a b =>
      (mrun n ic s a pos caps).flatMap (fun r => mrun n ic s b r.1 r.2)
    | .alt a b =>
      mrun n ic s a pos caps ++ mrun n ic s b pos caps
    | .star e =>
      ((mrun n ic s e pos caps).flatMap (fun r =>
        if pos < r.1 then mrun n ic s (.star e) r.1 r.2 else [])) ++ [(pos, caps)]
    | .group i e =>
      (mrun n ic s e pos caps).map (fun r => (r.1, capSet r.2 i pos r.1))
    | .startA => if pos = 0 then [(pos, caps)] else []
    | .endA => if pos = s.length then [(pos, caps)] else []

/-- Size of a regex AST, used to compute ample matcher fuel. -/
def reSize : RE → Nat
  | .eps => 1
  | .ch _ => 1
  | .anyCh => 1
  | .cls _ _ => 1
  | .startA => 1
  | .endA => 1
  | .seq a b => reSize a + reSize b + 1
  | .alt a b => reSize a + reSize b + 1
  | .star e => reSize e + 1
  | .group _ e => reSize e + 1

/-- Standard fuel: ample for matching `re` anywhere in `s` (the matcher
descends the AST and each greedy-star re-entry consumes input). -/
def stdFuel (re : RE) (s : Str) : Nat := (reSize re + 1) * (s.length + 2)

/-- The substring of `s` from offset `a` (inclusive) to `b` (exclusive),
modelling Python slicing `s[a:b]` for `0 ≤ a ≤ b`. -/
def slice (s : Str) (a b : Nat) : Str := (s.drop a).take (b - a)

/-- Interleave split segments with the delimiter substrings in between:
`s0 ++ d0 ++ s1 ++ d1 ++ ... ++ sn` (spare segments are concatenated,
spare delimiters dropped). -/
def interleave : List Str → List Str → Str
  | [], _ => []
  | sg :: rest, [] => sg ++ interleave rest []
  | sg :: rest, d :: ds => sg ++ d ++ interleave rest ds

/-- The single error condition of the modelled engine: Python's `re.error`.
The repository defines no error conditions of its own; every compile-time
failure surfaces as this one generic exception type. -/
inductive ReError where
  | compileError (msg : String)
  deriving DecidableEq, Repr

/-- A compiled pattern: the engine's immutable artifact.  `src` is the
pattern text (Python `Pattern.pattern`), `ngroups` the number of capturing
groups, `names` the named-group overlay mapping each name to its positional
group index. -/
structure CompiledRE where
  src : Str
  flags : Nat
  re : RE
  ngroups : Nat
  names : List (Str × Nat)
  deriving DecidableEq, Repr

/-- IGNORECASE bit of the flags bitset (`re.IGNORECASE = 2`). -/
def CompiledRE.ic (cp : CompiledRE) : Bool := cp.flags.land 2 != 0

/-- Anchored match attempt at offset `pos` (Python `Pattern.match` when
`pos = 0`): the engine's first (priority-order) result. -/
def engineMatchAt (cp : CompiledRE) (s : Str) (pos : Nat) : Option (Nat × Caps) :=
  (mrun (stdFuel cp.re s) cp.ic s cp.re pos []).head?

/-- Scan for the leftmost offset at which a match starts (Python
`Pattern.search`); fuel counts the candidate offsets. -/
def searchLoop (cp : CompiledRE) (s : Str) : Nat → Nat → Option (Nat × Nat × Caps)
  | 0, _ => none
  | f + 1, pos =>
    if pos > s.length then none
    else
      match engineMatchAt cp s pos with
      | some r => some (pos, r.1, r.2)
      | none => searchLoop cp s f (pos + 1)

/-- Python `Pattern.search`: try every start offset left to right. -/
def engineSearch (cp : CompiledRE) (s : Str) (pos : Nat) : Option (Nat × Nat × Caps) :=
  searchLoop cp s (s.length + 2) pos

/-- Does the whole text match (Python `Pattern.fullmatch` succeeding)?  The
backtracking engine succeeds iff some priority-order outcome consumes the
entire input. -/
def engineFullmatch (cp : CompiledRE) (s : Str) : Bool :=
  (mrun (stdFuel cp.re s) cp.ic s cp.re 0 []).any (fun r => r.1 = s.length)

/-- Scan position after a match from `st` to `en`: past the match end, and
one further when the match was empty (the engine's termination guarantee for
zero-length matches). -/
def nextScanPos (st en : Nat) : Nat := if st < en then en else en + 1

/-- The engine's non-overlapping left-to-right scan (Python
`Pattern.finditer`): raw `(start, end, captures)` triples. -/
def finditerLoop (cp : CompiledRE) (s : Str) : Nat → Nat → List (Nat × Nat × Caps)
  | 0, _ => []
  | f + 1, pos =>
    match engineSearch cp s pos with
    | none => []
    | some m => m :: finditerLoop cp s f (nextScanPos m.1 m.2.1)

/-- All raw matches of `cp` in `s`. -/
def engineMatches (cp : CompiledRE) (s : Str) : List (Nat × Nat × Caps) :=
  finditerLoop cp s (s.length + 2) 0

/-- One element of Python `findall`'s result, whose shape varies with the
number of capturing groups: a plain string (no groups, or the sole group's
text), or a tuple of group texts. -/
inductive FAItem where
  | str (s : Str)
  | tup (l : List Str)
  deriving DecidableEq, Repr

/-- The `findall` element for one raw match: whole-match text when the
pattern has no groups, the sole group's text for exactly one group
(empty string when the group did not participate), else the tuple of all
group texts. -/
def faItemOf (cp : CompiledRE) (s : Str) (st en : Nat) (caps : Caps) : FAItem :=
  if cp.ngroups = 0 then .str (slice s st en)
  else if cp.ngroups = 1 then
    .str (((capGet caps 1).map (fun p => slice s p.1 p.2)).getD [])
  else
    .tup ((List.range cp.ngroups).map (fun i =>
      ((capGet caps (i + 1)).map (fun p => slice s p.1 p.2)).getD []))

/-- Python `Pattern.findall`: same scan as `finditer`, emitting the shaped
element for each match. -/
def findallLoop (cp : CompiledRE) (s : Str) : Nat → Nat → List FAItem
  | 0, _ => []
  | f + 1, pos =>
    match engineSearch cp s pos with
    | none => []
    | some m => faItemOf cp s m.1 m.2.1 m.2.2 :: findallLoop cp s f (nextScanPos m.1 m.2.1)

def engineFindall (cp : CompiledRE) (s : Str) : List FAItem :=
  findallLoop cp s (s.length + 2) 0

/-- The captured-group texts interleaved into a `split` result for one
delimiter match (`none` for a group that did not participate). -/
def splitGroupItems (cp : CompiledRE) (s : Str) (caps : Caps) : List (Option Str) :=
  (List.range cp.ngroups).map (fun i => (capGet caps (i + 1)).map (fun p => slice s p.1 p.2))

/-- Python `Pattern.split`: cut `s` at every match of the same scan as
`finditer`, interleaving captured groups, stopping after `maxsplit` splits
when `maxsplit ≠ 0`; `segStart` is the start of the pending segment and `n`
the number of splits done so far. -/
def splitLoop (cp : CompiledRE) (s : Str) (maxsplit : Nat) :
    Nat → Nat → Nat → Nat → List (Option Str)
  | 0, _, segStart, _ => [some (slice s segStart s.length)]
  | f + 1, pos, segStart, n =>
    if maxsplit ≠ 0 ∧ maxsplit ≤ n then [some (slice s segStart s.length)]
    else
      match engineSearch cp s pos with
      | none => [some (slice s segStart s.length)]
      | some m =>
        some (slice s segStart m.1) :: splitGroupItems cp s m.2.2 ++
          splitLoop cp s maxsplit f (nextScanPos m.1 m.2.1) m.2.1 (n + 1)

def engineSplit (cp : CompiledRE) (s : Str) (maxsplit : Nat) : List (Option Str) :=
  splitLoop cp s maxsplit (s.length + 2) 0 0 0

/-! ### Pattern-text front end of the modelled engine

Python's `re` parses pattern text into its internal program.  The model
tokenizes the pattern and folds the tokens through an explicit group stack,
covering the syntax the repository produces (escaped literals, predefined
classes, bracket classes with ranges and negation, capturing / named /
non-capturing groups, alternation, anchors, `* + ?` and `{m}`, `{m,}`,
`{m,n}` quantifiers, with malformed brace expressions read as literal text
exactly as the engine does). -/

/-- One pattern-text token. -/
inductive Tok where
  | tchar (c : Char)
  | tclass (neg : Bool) (items : List ClsItem)
  | tdot
  | tcaret
  | tdollar
  | tstar
  | tplus
  | topt
  | trep (m : Nat) (n : Option Nat)
  | topen
  | topennc
  | topennamed (name : Str)
  | tclose
  | tbar
  deriving DecidableEq, Repr

/-- Scan a bracket class body up to its closing `]`, keeping escape pairs
together; returns the raw body and the text after the `]`. -/
def classScan : List Char → Option (List Char × List Char)
  | [] => none
  | ']' :: rest => some ([], rest)
  | '\\' :: c :: rest => (classScan rest).map (fun p => ('\\' :: c :: p.1, p.2))
  | '\\' :: [] => none
  | c :: rest => (classScan rest).map (fun p => (c :: p.1, p.2))

/-- The class item denoted by an escape `\\c` inside a bracket class. -/
def classEsc (c : Char) : Except ReError ClsItem :=
  if c = 'd' then .ok .dig
  else if c = 'D' then .ok .ndig
  else if c = 'w' then .ok .wrd
  else if c = 'W' then .ok .nwrd
  else if c = 's' then .ok .spc
  else if c = 'S' then .ok .nspc
  else if c.isAlphanum then .error (.compileError "bad escape")
  else .ok (.single c)

/-- Parse the items of a bracket class body (`-` is a range operator
between two characters, literal at the edges). -/
def parseClassItems : List Char → Except ReError (List ClsItem)
  | [] => .ok []
  | '\\' :: c :: rest =>
    match classEsc c with
    | .error e => .error e
    | .ok it =>
      match parseClassItems rest with
      | .error e => .error e
      | .ok more => .ok (it :: more)
  | '\\' :: [] => .error (.compileError "bad escape")
  | c :: '-' :: d :: rest =>
    if c ≤ d then
      match parseClassItems rest with
      | .error e => .error e
      | .ok more => .ok (.range c d :: more)
    else .error (.compileError "bad character range")
  | c :: rest =>
    match parseClassItems rest with
    | .error e => .error e
    | .ok more => .ok (.single c :: more)

/-- Parse a full bracket class body, honouring a leading `^` negation. -/
def parseClassBody : List Char → Except ReError (Bool × List ClsItem)
  | '^' :: rest => (parseClassItems rest).map (fun l => (true, l))
  | content => (parseClassItems content).map (fun l => (false, l))

/-- Numeric value of a digit run. -/
def natOfDigits (ds : List Char) : Nat :=
  ds.foldl (fun acc c => 10 * acc + (c.toNat - 48)) 0

/-- Scan a brace quantifier body after `{`: `m}`, `m,}`, `m,n}`, `,n}` or
`,}` (an absent bound reads as 0 below, unbounded above).  `none` means the
braces are not a well-formed quantifier (the engine then reads `{` as a
literal character). -/
def braceScan (cs : List Char) : Option ((Nat × Option Nat) × List Char) :=
  let p1 := cs.span isDigitCh
  match p1.2 with
  | '\x7d' :: rest =>
    if p1.1.isEmpty then none
    else some ((natOfDigits p1.1, some (natOfDigits p1.1)), rest)
  | ',' :: r2 =>
    let p2 := r2.span isDigitCh
    match p2.2 with
    | '\x7d' :: rest =>
      some ((natOfDigits p1.1,
             if p2.1.isEmpty then none else some (natOfDigits p2.1)), rest)
    | _ => none
  | _ => none

/-- The class item a top-level escape `\\c` stands for, as a token. -/
def escTok (c : Char) : Except ReError Tok :=
  if c = 'd' then .ok (.tclass false [.dig])
  else if c = 'D' then .ok (.tclass false [.ndig])
  else if c = 'w' then .ok (.tclass false [.wrd])
  else if c = 'W' then .ok (.tclass false [.nwrd])
  else if c = 's' then .ok (.tclass false [.spc])
  else if c = 'S' then .ok (.tclass false [.nspc])
  else if c.isAlphanum then .error (.compileError "bad escape")
  else .ok (.tchar c)

/-- Handle the text after an opening `(`: plain, `(?:`, or `(?P<name>`
group (other `(?` extensions are outside the modelled subset). -/
def openTok (cs : List Char) : Except ReError (Tok × List Char) :=
  match cs with
  | '?' :: ':' :: cs2 => .ok (.topennc, cs2)
  | '?' :: 'P' :: '<' :: cs2 =>
    let p := cs2.span (fun c => c ≠ '>')
    match p.2 with
    | '>' :: cs3 =>
      if p.1.isEmpty then .error (.compileError "missing group name")
      else .ok (.topennamed p.1, cs3)
    | _ => .error (.compileError "missing >, unterminated name")
  | '?' :: _ => .error (.compileError "unsupported extension")
  | _ => .ok (.topen, cs)

/-- Tokenize pattern text; fuel bounds the number of tokens (each consumes
at least one character, so `length + 1` always suffices). -/
def tokenize : Nat → List Char → Except ReError (List Tok)
  | 0, _ => .error (.compileError "internal overflow")
  | _ + 1, [] => .ok []
  | f + 1, c :: rest =>
    if c = '\\' then
      match rest with
      | [] => .error (.compileError "bad escape")
      | d :: cs =>
        match escTok d with
        | .error e => .error e
        | .ok t =>
          match tokenize f cs with
          | .error e => .error e
          | .ok ts => .ok (t :: ts)
    else if c = '[' then
      match classScan rest with
      | none => .error (.compileError "unterminated character set")
      | some p =>
        match parseClassBody p.1 with
        | .error e => .error e
        | .ok nb =>
          match tokenize f p.2 with
          | .error e => .error e
          | .ok ts => .ok (.tclass nb.1 nb.2 :: ts)
    else if c = '(' then
      match openTok rest with
      | .error e => .error e
      | .ok t =>
        match tokenize f t.2 with
        | .error e => .error e
        | .ok ts => .ok (t.1 :: ts)
    else if c = ')' then
      match tokenize f rest with
      | .error e => .error e
      | .ok ts => .ok (.tclose :: ts)
    else if c = '|' then
      match tokenize f rest with
      | .error e => .error e
      | .ok ts => .ok (.tbar :: ts)
    else if c = '*' then
      match tokenize f rest with
      | .error e => .error e
      | .ok ts => .ok (.tstar :: ts)
    else if c = '+' then
      match tokenize f rest with
      | .error e => .error e
      | .ok ts => .ok (.tplus :: ts)
    else if c = '?' then
      match tokenize f rest with
      | .error e => .error e
      | .ok ts => .ok (.topt :: ts)
    else if c = '.' then
      match tokenize f rest with
      | .error e => .error e
      | .ok ts => .ok (.tdot :: ts)
    else if c = '^' then
      match tokenize f rest with
      | .error e => .error e
      | .ok ts => .ok (.tcaret :: ts)
    else if c = '$' then
      match tokenize f rest with
      | .error e => .error e
      | .ok ts => .ok (.tdollar :: ts)
    else if c = '\x7b' then
      match braceScan rest with
      | some p =>
        match tokenize f p.2 with
        | .error e => .error e
        | .ok ts => .ok (.trep p.1.1 p.1.2 :: ts)
      | none =>
        match tokenize f rest with
        | .error e => .error e
        | .ok ts => .ok (.tchar '\x7b' :: ts)
    else
      match tokenize f rest with
      | .error e => .error e
      | .ok ts => .ok (.tchar c :: ts)

/-- Kind of an open group on the parser stack. -/
inductive GKind where
  | cap (i : Nat)
  | noncap
  deriving DecidableEq, Repr

/-- Saved parser context for one open group. -/
structure PFrame where
  kind : GKind
  savedAlts : List RE
  savedCur : List RE
  deriving DecidableEq, Repr

/-- Parser state: open-group stack, completed alternatives (reversed),
current sequence atoms (reversed), next group index (starting at 1), and
the named groups seen so far. -/
structure PState where
  stack : List PFrame
  alts : List RE
  cur : List RE
  gidx : Nat
  names : List (Str × Nat)
  deriving DecidableEq, Repr

/-- Concatenation of a list of atoms. -/
def seqList (l : List RE) : RE := l.foldr .seq .eps

/-- The pattern matching a fixed text literally, character by character. -/
def litRE (L : Str) : RE := seqList (L.map RE.ch)

/-- Alternation of a nonempty list of branches, first branch highest
priority. -/
def altList : List RE → RE
  | [] => .eps
  | [a] => a
  | a :: rest => .alt a (altList rest)

/-- Close off the pending alternatives and current sequence into one RE. -/
def finishAlts (alts cur : List RE) : RE :=
  altList (alts.reverse ++ [seqList cur.reverse])

/-- Apply a quantifier to the immediately preceding atom; the engine
rejects a quantifier with nothing before it. -/
def quantHead (st : PState) (f : RE → RE) : Except ReError PState :=
  match st.cur with
  | [] => .error (.compileError "nothing to repeat")
  | a :: rest => .ok { st with cur := f a :: rest }

/-- `m` concatenated copies of an atom. -/
def powRE (a : RE) (m : Nat) : RE := seqList (List.replicate m a)

/-- Greedy chain of up to `j` further optional copies of an atom. -/
def optChain (a : RE) : Nat → RE
  | 0 => .eps
  | j + 1 => .alt (.seq a (optChain a j)) .eps

/-- Expand a brace quantifier `{m}` / `{m,}` / `{m,n}` over an atom; the
engine rejects `m > n`. -/
def applyRep (a : RE) (m : Nat) (n : Option Nat) : Except ReError RE :=
  match n with
  | none => .ok (.seq (powRE a m) (.star a))
  | some k =>
    if k < m then .error (.compileError "min repeat greater than max repeat")
    else .ok (.seq (powRE a m) (optChain a (k - m)))

/-- Fold the token stream through the group stack, producing the AST, the
number of capturing groups, and the named-group table. -/
def parseLoop : List Tok → PState → Except ReError (RE × Nat × List (Str × Nat))
  | [], st =>
    if st.stack.isEmpty then .ok (finishAlts st.alts st.cur, st.gidx - 1, st.names)
    else .error (.compileError "missing ), unterminated subpattern")
  | t :: ts, st =>
    match t with
    | .tchar c => parseLoop ts { st with cur := .ch c :: st.cur }
    | .tclass neg items => parseLoop ts { st with cur := .cls neg items :: st.cur }
    | .tdot => parseLoop ts { st with cur := .anyCh :: st.cur }
    | .tcaret => parseLoop ts { st with cur := .startA :: st.cur }
    | .tdollar => parseLoop ts { st with cur := .endA :: st.cur }
    | .tstar =>
      match quantHead st .star with
      | .error e => .error e
      | .ok st2 => parseLoop ts st2
    | .tplus =>
      match quantHead st (fun a => .seq a (.star a)) with
      | .error e => .error e
      | .ok st2 => parseLoop ts st2
    | .topt =>
      match quantHead st (fun a => .alt a .eps) with
      | .error e => .error e
      | .ok st2 => parseLoop ts st2
    | .trep m n =>
      match st.cur with
      | [] => .error (.compileError "nothing to repeat")
      | a :: rest =>
        match applyRep a m n with
        | .error e => .error e
        | .ok r => parseLoop ts { st with cur := r :: rest }
    | .tbar => parseLoop ts { st with alts := seqList st.cur.reverse :: st.alts, cur := [] }
    | .topen =>
      parseLoop ts ⟨⟨.cap st.gidx, st.alts, st.cur⟩ :: st.stack, [], [], st.gidx + 1, st.names⟩
    | .topennc =>
      parseLoop ts ⟨⟨.noncap, st.alts, st.cur⟩ :: st.stack, [], [], st.gidx, st.names⟩
    | .topennamed nm =>
      parseLoop ts
        ⟨⟨.cap st.gidx, st.alts, st.cur⟩ :: st.stack, [], [], st.gidx + 1,
         st.names ++ [(nm, st.gidx)]⟩
    | .tclose =>
      match st.stack with
      | [] => .error (.compileError "unbalanced parenthesis")
      | fr :: srest =>
        let inner := finishAlts st.alts st.cur
        let atom := match fr.kind with
          | .cap i => RE.group i inner
          | .noncap => inner
        parseLoop ts ⟨srest, fr.savedAlts, atom :: fr.savedCur, st.gidx, st.names⟩

/-- The fresh parser state. -/
def pInit : PState := ⟨[], [], [], 1, []⟩

/-- Parse pattern text into (AST, group count, named groups). -/
def parsePattern (src : Str) : Except ReError (RE × Nat × List (Str × Nat)) :=
  match tokenize (src.length + 1) src with
  | .error e => .error e
  | .ok ts => parseLoop ts pInit

/-- Is some element of the list repeated? -/
def hasDup : List Str → Bool
  | [] => false
  | x :: xs => xs.contains x || hasDup xs

/-- Python `re.compile`: parse the pattern text and reject a pattern that
redefines a group name; every failure is the one generic `re.error`. -/
def engineCompile (src : Str) (flags : Nat) : Except ReError CompiledRE :=
  match parsePattern src with
  | .error e => .error e
  | .ok r =>
    if hasDup (r.2.2.map Prod.fst) then
      .error (.compileError "redefinition of group name")
    else
      .ok ⟨src, flags, r.1, r.2.1, r.2.2⟩

/-! ### Repository code (translated from src/roadregex/regex.py) -/

/-- The characters `re.escape` prefixes with a backslash:
`()[]{}?*+-|^$\.&~#` and the whitespace characters space, tab, newline,
carriage return, vertical tab, form feed. -/
def specialChars : List Char :=
  ['(', ')', '[', ']', '\x7b', '\x7d', '?', '*', '+', '-', '|', '^', '$',
   '\\', '.', '&', '~', '#', ' ', '\t', '\n', '\r', '\x0b', '\x0c']

/-- Python `re.escape`: neutralize every metacharacter of the text. -/
def reEscape (s : Str) : Str :=
  s.flatMap (fun c => if c ∈ specialChars then ['\\', c] else [c])

/-- Python `str(i)` for an integer. -/
def pyIntRepr (i : Int) : Str :=
  if i < 0 then '-' :: Nat.toDigits 10 i.natAbs else Nat.toDigits 10 i.natAbs

/-- The fluent pattern composer: an ordered fragment list `_parts` plus an
OR-accumulated flag bitset `_flags`. -/
structure RegexBuilder where
  parts : List Str
  flags : Nat
  deriving DecidableEq, Repr

namespace RegexBuilder

/-- `RegexBuilder()`. -/
def new : RegexBuilder := ⟨[], 0⟩

/-- `literal`: append the fragment-escaped form of the text. -/
def literal (b : RegexBuilder) (text : Str) : RegexBuilder :=
  { b with parts := b.parts ++ [reEscape text] }

/-- `any_char`: append `.`. -/
def any_char (b : RegexBuilder) : RegexBuilder :=
  { b with parts := b.parts ++ [['.']] }

/-- `digit`: append `\\d`. -/
def digit (b : RegexBuilder) : RegexBuilder :=
  { b with parts := b.parts ++ [['\\', 'd']] }

/-- `digits(min_count, max_count)`: append the formatted quantifier text
`\\d{min,}` or `\\d{min,max}` with no validation of the range. -/
def digits (b : RegexBuilder) (min_count : Int) (max_count : Option Int) : RegexBuilder :=
  match max_count with
  | none =>
    { b with parts :=
        b.parts ++ [['\\', 'd', '\x7b'] ++ pyIntRepr min_count ++ [',', '\x7d']] }
  | some mx =>
    { b with parts :=
        b.parts ++ [['\\', 'd', '\x7b'] ++ pyIntRepr min_count ++ [','] ++
                    pyIntRepr mx ++ ['\x7d']] }

/-- `word`: append `\\w+`. -/
def word (b : RegexBuilder) : RegexBuilder :=
  { b with parts := b.parts ++ [['\\', 'w', '+']] }

/-- `word_char`: append `\\w`. -/
def word_char (b : RegexBuilder) : RegexBuilder :=
  { b with parts := b.parts ++ [['\\', 'w']] }

/-- `whitespace`: append `\\s`. -/
def whitespace (b : RegexBuilder) : RegexBuilder :=
  { b with parts := b.parts ++ [['\\', 's']] }

/-- `optional`: wrap the caller-supplied raw fragment in `(?:...)?`. -/
def optional (b : RegexBuilder) (pattern : Str) : RegexBuilder :=
  { b with parts := b.parts ++ [['(', '?', ':'] ++ pattern ++ [')', '?']] }

/-- `group(pattern, name)`: wrap the raw fragment in a capturing group,
named when `name` is truthy (Python treats both `None` and the empty string
as falsy). -/
def group (b : RegexBuilder) (pattern : Str) (name : Option Str) : RegexBuilder :=
  match name with
  | some nm =>
    if nm.isEmpty then { b with parts := b.parts ++ [['('] ++ pattern ++ [')']] }
    else
      { b with parts :=
          b.parts ++ [['(', '?', 'P', '<'] ++ nm ++ ['>'] ++ pattern ++ [')']] }
  | none => { b with parts := b.parts ++ [['('] ++ pattern ++ [')']] }

/-- `one_of`: non-capturing alternation of the escaped options in order. -/
def one_of (b : RegexBuilder) (options : List Str) : RegexBuilder :=
  { b with parts :=
      b.parts ++ [['(', '?', ':'] ++ (List.intercalate ['|'] (options.map reEscape)) ++ [')']] }

/-- `char_class`: a bracket class containing the raw characters verbatim. -/
def char_class (b : RegexBuilder) (chars : Str) : RegexBuilder :=
  { b with parts := b.parts ++ [['['] ++ chars ++ [']']] }

/-- `repeat(min_count, max_count)`: append a bare brace quantifier with no
validation of the range. -/
def «repeat» (b : RegexBuilder) (min_count : Int) (max_count : Option Int) : RegexBuilder :=
  match max_count with
  | none =>
    { b with parts := b.parts ++ [['\x7b'] ++ pyIntRepr min_count ++ [',', '\x7d']] }
  | some mx =>
    { b with parts :=
        b.parts ++ [['\x7b'] ++ pyIntRepr min_count ++ [','] ++ pyIntRepr mx ++ ['\x7d']] }

/-- `start`: append the `^` anchor. -/
def start (b : RegexBuilder) : RegexBuilder :=
  { b with parts := b.parts ++ [['^']] }

/-- `end`: append the `$` anchor (`end` is reserved in Lean). -/
def end_ (b : RegexBuilder) : RegexBuilder :=
  { b with parts := b.parts ++ [['$']] }

/-- `case_insensitive`: OR the IGNORECASE flag in. -/
def case_insensitive (b : RegexBuilder) : RegexBuilder :=
  { b with flags := b.flags.lor 2 }

/-- `multiline`: OR the MULTILINE flag in. -/
def multiline (b : RegexBuilder) : RegexBuilder :=
  { b with flags := b.flags.lor 8 }

/-- `build`: compile the concatenated fragments with the accumulated flags
through the engine. -/
def build (b : RegexBuilder) : Except ReError CompiledRE :=
  engineCompile b.parts.flatten b.flags

/-- `pattern`: the concatenated fragments as plain text. -/
def pattern (b : RegexBuilder) : Str := b.parts.flatten

end RegexBuilder

/-- The normalized match record (the repository's `Match` dataclass); the
source field `end` is spelled `end_` here. -/
structure Match where
  text : Str
  start : Nat
  end_ : Nat
  groups : List (Option Str)
  groupdict : List (Str × Option Str)
  deriving DecidableEq, Repr

/-- Build the repository's `Match` from one raw engine result, as the
`Regex` methods do from `m.group(0)`, `m.start()`, `m.end()`, `m.groups()`
and `m.groupdict()`. -/
def mkMatch (cp : CompiledRE) (s : Str) (st en : Nat) (caps : Caps) : Match :=
  { text := slice s st en
    start := st
    end_ := en
    groups := (List.range cp.ngroups).map (fun i =>
      (capGet caps (i + 1)).map (fun p => slice s p.1 p.2))
    groupdict := cp.names.map (fun ni =>
      (ni.1, (capGet caps ni.2).map (fun p => slice s p.1 p.2))) }

/-- The matcher wrapper (the repository's `Regex` class). -/
structure Regex where
  compiled : CompiledRE
  pattern : Str
  deriving DecidableEq, Repr

namespace Regex

/-- `Regex.__init__(pattern, flags)`: a plain string is compiled with the
flags; an already-compiled pattern is adopted as-is (the flags argument is
not consulted on that branch). -/
def make : Sum Str CompiledRE → Nat → Except ReError Regex
  | .inl s, flags => (engineCompile s flags).map (fun c => ⟨c, c.src⟩)
  | .inr p, _ => .ok ⟨p, p.src⟩

/-- `match(text)`: anchored attempt at offset 0. -/
def match_ (r : Regex) (text : Str) : Option Match :=
  (engineMatchAt r.compiled text 0).map (fun m => mkMatch r.compiled text 0 m.1 m.2)

/-- `search(text)`: leftmost match anywhere. -/
def search (r : Regex) (text : Str) : Option Match :=
  (engineSearch r.compiled text 0).map (fun m => mkMatch r.compiled text m.1 m.2.1 m.2.2)

/-- `find_all(text)`: delegate to the engine's `findall`. -/
def find_all (r : Regex) (text : Str) : List FAItem :=
  engineFindall r.compiled text

/-- `find_iter(text)`: every match of the non-overlapping scan, as `Match`
records (the generator, fully elaborated). -/
def find_iter (r : Regex) (text : Str) : List Match :=
  (engineMatches r.compiled text).map (fun m => mkMatch r.compiled text m.1 m.2.1 m.2.2)

/-- `split(text, maxsplit)`: delegate to the engine's `split`. -/
def split (r : Regex) (text : Str) (maxsplit : Nat) : List (Option Str) :=
  engineSplit r.compiled text maxsplit

/-- `is_match(text)`: a match anchored at 0 exists. -/
def is_match (r : Regex) (text : Str) : Bool :=
  (engineMatchAt r.compiled text 0).isSome

/-- `is_full_match(text)`: the full text matches begin-to-end. -/
def is_full_match (r : Regex) (text : Str) : Bool :=
  engineFullmatch r.compiled text

end Regex

/-- The `CommonPatterns` class attributes, in the alphabetical order
`dir()` enumerates them. -/
def commonTable : List (Str × Str) :=
  [(("CREDIT_CARD").toList,
    ("\\d\x7b4\x7d[- ]?\\d\x7b4\x7d[- ]?\\d\x7b4\x7d[- ]?\\d\x7b4\x7d").toList),
   (("DATE_ISO").toList, ("\\d\x7b4\x7d-\\d\x7b2\x7d-\\d\x7b2\x7d").toList),
   (("DATE_US").toList, ("\\d\x7b1,2\x7d/\\d\x7b1,2\x7d/\\d\x7b2,4\x7d").toList),
   (("EMAIL").toList,
    ("[a-zA-Z0-9._%+-]+@[a-zA-Z0-9.-]+\\.[a-zA-Z]\x7b2,\x7d").toList),
   (("HEX_COLOR").toList, ("#[0-9A-Fa-f]\x7b3,6\x7d").toList),
   (("IPv4").toList,
    ("\\d\x7b1,3\x7d\\.\\d\x7b1,3\x7d\\.\\d\x7b1,3\x7d\\.\\d\x7b1,3\x7d").toList),
   (("MAC_ADDRESS").toList, ("([0-9A-Fa-f]\x7b2\x7d:)\x7b5\x7d[0-9A-Fa-f]\x7b2\x7d").toList),
   (("PHONE_US").toList,
    ("\\(?\\d\x7b3\x7d\\)?[-.\\s]?\\d\x7b3\x7d[-.\\s]?\\d\x7b4\x7d").toList),
   (("SLUG").toList, ("[a-z0-9]+(?:-[a-z0-9]+)*").toList),
   (("SSN").toList, ("\\d\x7b3\x7d-\\d\x7b2\x7d-\\d\x7b4\x7d").toList),
   (("TIME_24H").toList, ("\\d\x7b2\x7d:\\d\x7b2\x7d(:\\d\x7b2\x7d)?").toList),
   (("URL").toList, ("https?://[^\\s/$.?#].[^\\s]*").toList),
   (("USERNAME").toList, ("[a-zA-Z][a-zA-Z0-9_]\x7b2,19\x7d").toList),
   (("UUID").toList,
    ("[0-9a-f]\x7b8\x7d-[0-9a-f]\x7b4\x7d-[0-9a-f]\x7b4\x7d-[0-9a-f]\x7b4\x7d-[0-9a-f]\x7b12\x7d").toList),
   (("ZIP_US").toList, ("\\d\x7b5\x7d(-\\d\x7b4\x7d)?").toList)]

/-- Lower-case a name as Python `str.lower` does for ASCII names. -/
def strLower (s : Str) : Str := s.map Char.toLower

/-- Python dict insertion: overwrite the value in place if the key exists,
else append a new entry. -/
def dictSet (d : List (Str × Regex)) (k : Str) (v : Regex) : List (Str × Regex) :=
  if d.any (fun p => p.1 = k) then
    d.map (fun p => if p.1 = k then (k, v) else p)
  else d ++ [(k, v)]

/-- Python `dict.get`. -/
def dictGet (d : List (Str × Regex)) (k : Str) : Option Regex :=
  (d.find? (fun p => p.1 = k)).map Prod.snd

/-- The registry of named patterns (the repository's `RegexExtractor`). -/
structure RegexExtractor where
  patterns : List (Str × Regex)
  deriving DecidableEq, Repr

/-- `_register_common_patterns`: register every `CommonPatterns` attribute
under its lower-cased name, compiled with IGNORECASE. -/
def regCommonLoop : List (Str × Str) → List (Str × Regex) → Except ReError (List (Str × Regex))
  | [], acc => .ok acc
  | (n, p) :: rest, acc =>
    match Regex.make (.inl p) 2 with
    | .error e => .error e
    | .ok r => regCommonLoop rest (dictSet acc (strLower n) r)

/-- `RegexExtractor()`: an empty dict seeded by
`_register_common_patterns`. -/
def extractorInit : Except ReError RegexExtractor :=
  (regCommonLoop commonTable []).map RegexExtractor.mk

namespace RegexExtractor

/-- `register(name, pattern, flags)`: store `Regex(pattern, flags)` under
the name exactly as supplied. -/
def register (e : RegexExtractor) (name : Str) (pattern : Str) (flags : Nat) :
    Except ReError RegexExtractor :=
  (Regex.make (.inl pattern) flags).map (fun r => ⟨dictSet e.patterns name r⟩)

/-- `extract(name, text)`: `find_all` of the named pattern, or `[]` for an
unknown name. -/
def extract (e : RegexExtractor) (name : Str) (text : Str) : List FAItem :=
  match dictGet e.patterns name with
  | some r => r.find_all text
  | none => []

/-- `validate(name, text)`: full match against the named pattern, or
`False` for an unknown name. -/
def validate (e : RegexExtractor) (name : Str) (text : Str) : Bool :=
  match dictGet e.patterns name with
  | some r => r.is_full_match text
  | none => false

end RegexExtractor

instance instDecidableEqExcept {ε α : Type} [DecidableEq ε] [DecidableEq α] :
    DecidableEq (Except ε α) := fun x y =>
  match x, y with
  | .ok u, .ok v => if h : u = v then .isTrue (by rw [h]) else .isFalse (by simp [h])
  | .error u, .error v => if h : u = v then .isTrue (by rw [h]) else .isFalse (by simp [h])
  | .ok _, .error _ => .isFalse (by simp)
  | .error _, .ok _ => .isFalse (by simp)

end RoadRegex

namespace RoadRegex

/-! ### C1: `digits` with a malformed range -/

/-- C1 counterexample: calling `digits(-1)` on a fresh composer does not
fail at call time with any `InvalidQuantifier` condition; it silently
appends the malformed quantifier fragment `\d{-1,}` to the fragment
list. -/
theorem c1_digits_silent_append :
    (RegexBuilder.new.digits (-1) none).parts = [("\\d\x7b-1,\x7d").toList] := by
  decide

/-- C1 amended: for every composer state and every range (negative
`min_count` and inverted ranges included), `digits` always succeeds,
appending exactly the Python-formatted quantifier fragment and leaving the
flags untouched; any range validation is deferred to the engine at build
time. -/
theorem c1_digits_appends_fragment (b : RegexBuilder) (mn : Int) (mx : Option Int) :
    (b.digits mn mx).parts = b.parts ++
      [['\\', 'd', '\x7b'] ++ pyIntRepr mn ++
        (match mx with
         | none => [',', '\x7d']
         | some m => [','] ++ pyIntRepr m ++ ['\x7d'])] ∧
    (b.digits mn mx).flags = b.flags := by
  cases mx <;> simp [RegexBuilder.digits]

/-! ### C10: flags alongside a precompiled pattern -/

/-- C10: constructing the matcher from an already-compiled pattern ignores
the flags argument entirely — the construction equals the flags-0
construction, so no subsequent matching operation can observe the flags. -/
theorem c10_precompiled_flags_ignored (p : CompiledRE) (flags : Nat) :
    Regex.make (.inr p) flags = Regex.make (.inr p) 0 := rfl

/-! ### C2: duplicate group names (counterexample half) -/

/-- C2 counterexample: with two groups named `x`, `build()` does fail, but
the failure is the engine's single generic compile-error condition
(Python's `re.error`), not a distinct `DuplicateGroupName` condition — the
code defines no such condition, so the failure is indistinguishable in kind
from any other pattern-compile failure. -/
theorem c2_duplicate_name_generic_error :
    (RegexBuilder.new.group ("a").toList (some ("x").toList)
      |>.group ("b").toList (some ("x").toList)).build =
    .error (.compileError "redefinition of group name") := by decide

/-! ### C6: case normalization of registry keys (counterexample half) -/

/-- C6 counterexample: caller registration does not lower-case the stored
key: `register("ABC", "x")` stores exactly the key `ABC`, which differs
from its lower-cased form. -/
theorem c6_register_preserves_case :
    ((RegexExtractor.mk []).register ("ABC").toList ("x").toList 0).map
      (fun e => e.patterns.map Prod.fst) = .ok [("ABC").toList] ∧
    ("ABC").toList ≠ strLower ("ABC").toList :=
  ⟨by decide, by decide⟩

/-- Keys after a dict insertion with a fresh key: the old keys plus the new
key, exactly as supplied. -/
theorem dictSet_keys_of_not_mem (d : List (Str × Regex)) (k : Str) (v : Regex)
    (h : k ∉ d.map Prod.fst) :
    (dictSet d k v).map Prod.fst = d.map Prod.fst ++ [k] := by
  unfold dictSet
  rw [if_neg, List.map_append]
  · rfl
  · simp only [List.any_eq_true, decide_eq_true_eq]
    rintro ⟨p, hp, hpk⟩
    exact h (List.mem_map.mpr ⟨p, hp, hpk⟩)

/-- Keys produced by the built-in registration loop: every table entry
contributes its lower-cased name, in order. -/
theorem regCommonLoop_keys :
    ∀ (tbl : List (Str × Str)) (acc : List (Str × Regex)) (l : List (Str × Regex)),
      regCommonLoop tbl acc = .ok l →
      (∀ p ∈ tbl, strLower p.1 ∉ acc.map Prod.fst) →
      (tbl.map (fun p => strLower p.1)).Nodup →
      l.map Prod.fst = acc.map Prod.fst ++ tbl.map (fun p => strLower p.1) := by
  intro tbl
  induction tbl with
  | nil =>
    intro acc l h _ _
    simp only [regCommonLoop] at h
    cases h
    simp
  | cons hd rest ih =>
    intro acc l h hdisj hnodup
    obtain ⟨n, p⟩ := hd
    simp only [regCommonLoop] at h
    cases hr : Regex.make (.inl p) 2 with
    | error err => rw [hr] at h; simp at h
    | ok r =>
      rw [hr] at h
      simp only [] at h
      have hfresh : strLower n ∉ acc.map Prod.fst :=
        hdisj (n, p) (List.mem_cons_self (n, p) rest)
      have hkeys := dictSet_keys_of_not_mem acc (strLower n) r hfresh
      rw [List.map_cons] at hnodup
      have hnod := List.nodup_cons.mp hnodup
      have ih' := ih (dictSet acc (strLower n) r) l h ?_ hnod.2
      · rw [ih', hkeys]
        simp
      · intro q hq
        rw [hkeys]
        simp only [List.mem_append, List.mem_singleton]
        rintro (hin | heq)
        · exact hdisj q (List.mem_cons_of_mem (n, p) hq) hin
        · exact hnod.1 (heq ▸ List.mem_map.mpr ⟨q, hq, rfl⟩)

/-- C6 amended: built-in registration stores every `CommonPatterns` name
lower-cased (so built-in lookup is deterministic), but caller registration
via `register` stores the key exactly as supplied, with no case
normalization. -/
theorem c6_registration_keys :
    (∀ e, extractorInit = .ok e →
       e.patterns.map Prod.fst = commonTable.map (fun p => strLower p.1)) ∧
    (∀ (ps : List (Str × Regex)) (nm pat : Str) (fl : Nat) (e : RegexExtractor),
       RegexExtractor.register ⟨ps⟩ nm pat fl = .ok e →
       nm ∉ ps.map Prod.fst →
       e.patterns.map Prod.fst = ps.map Prod.fst ++ [nm]) := by
  constructor
  · intro e h
    unfold extractorInit at h
    cases hl : regCommonLoop commonTable [] with
    | error err => rw [hl] at h; simp [Except.map] at h
    | ok l =>
      rw [hl] at h
      simp only [Except.map, Except.ok.injEq] at h
      have hk := regCommonLoop_keys commonTable [] l hl (by simp) (by decide)
      rw [← h]
      simpa using hk
  · intro ps nm pat fl e h hfresh
    unfold RegexExtractor.register at h
    cases hr : Regex.make (.inl pat) fl with
    | error err => rw [hr] at h; simp [Except.map] at h
    | ok r =>
      rw [hr] at h
      simp only [Except.map, Except.ok.injEq] at h
      rw [← h]
      exact dictSet_keys_of_not_mem ps nm r hfresh

/-- C6 witness: the amended claim at concrete inputs — the seeded registry
carries exactly the lower-cased built-in names, and registering under
`ABC` stores the key `ABC`. -/
theorem c6_registration_keys_witness :
    (∃ e, extractorInit = .ok e ∧
       e.patterns.map Prod.fst = commonTable.map (fun p => strLower p.1)) ∧
    (∃ e, RegexExtractor.register ⟨[]⟩ ("ABC").toList ("x").toList 0 = .ok e ∧
       e.patterns.map Prod.fst = [("ABC").toList]) := by
  constructor
  · have hok : extractorInit.toOption.isSome = true := by decide
    cases hr : extractorInit with
    | ok e => exact ⟨e, rfl, c6_registration_keys.1 e hr⟩
    | error err => rw [hr] at hok; simp [Except.toOption] at hok
  · cases hr : RegexExtractor.register ⟨[]⟩ ("ABC").toList ("x").toList 0 with
    | ok e =>
      refine ⟨e, rfl, ?_⟩
      have := c6_registration_keys.2 [] (("ABC").toList) (("x").toList) 0 e hr
        (List.not_mem_nil _)
      simpa using this
    | error err =>
      have hok : (RegexExtractor.register ⟨[]⟩ ("ABC").toList ("x").toList 0).toOption.isSome
          = true := by decide
      rw [hr] at hok
      simp [Except.toOption] at hok

/-! ### C5: `validate` -/

/-- C5: for every registry state, name and text: when the name is bound,
`validate` returns true exactly when some engine outcome consumes the whole
text from offset 0 to its end (a begin-to-end full match, not a prefix or
search); when the name is not present, `validate` returns false rather than
failing. -/
theorem c5_validate_full_match (e : RegexExtractor) (nm text : Str) :
    (∀ r, dictGet e.patterns nm = some r →
       (e.validate nm text = true ↔
         ∃ res ∈ mrun (stdFuel r.compiled.re text) r.compiled.ic text r.compiled.re 0 [],
           res.1 = text.length)) ∧
    (dictGet e.patterns nm = none → e.validate nm text = false) := by
  constructor
  · intro r hr
    unfold RegexExtractor.validate
    rw [hr]
    unfold Regex.is_full_match engineFullmatch
    simp [List.any_eq_true]
  · intro hr
    unfold RegexExtractor.validate
    rw [hr]

/-- C5 witness: on a registry binding the name `a` to the compiled pattern
`a`, `validate` is true on text `a` and is false for the unbound name
`b`. -/
theorem c5_validate_full_match_witness :
    (RegexExtractor.mk
       [(("a").toList, ⟨⟨("a").toList, 0, RE.ch 'a', 0, []⟩, ("a").toList⟩)]).validate
      ("a").toList ("a").toList = true ∧
    (RegexExtractor.mk
       [(("a").toList, ⟨⟨("a").toList, 0, RE.ch 'a', 0, []⟩, ("a").toList⟩)]).validate
      ("b").toList ("a").toList = false := by
  constructor
  · exact ((c5_validate_full_match
      (RegexExtractor.mk
        [(("a").toList, ⟨⟨("a").toList, 0, RE.ch 'a', 0, []⟩, ("a").toList⟩)])
      ("a").toList ("a").toList).1
      ⟨⟨("a").toList, 0, RE.ch 'a', 0, []⟩, ("a").toList⟩ (by decide)).mpr (by decide)
  · exact (c5_validate_full_match
      (RegexExtractor.mk
        [(("a").toList, ⟨⟨("a").toList, 0, RE.ch 'a', 0, []⟩, ("a").toList⟩)])
      ("b").toList ("a").toList).2 (by decide)

/-! ### Engine-scan lemmas shared by the matcher-level claims -/

/-- The head of a list, when present, is a member. -/
theorem headMem {α : Type} {l : List α} {a : α} (h : l.head? = some a) : a ∈ l := by
  cases l with
  | nil => simp at h
  | cons x xs =>
    simp only [List.head?, Option.some.injEq] at h
    subst h
    exact List.mem_cons_self x xs

/-- Every matcher outcome ends at or after its start position, and ends
within the text unless it stayed exactly at a start position that already
lay beyond the text. -/
theorem mrun_mem_bounds :
    ∀ (f : Nat) (ic : Bool) (s : Str) (re : RE) (pos : Nat) (caps : Caps)
      (r : Nat × Caps), r ∈ mrun f ic s re pos caps →
      pos ≤ r.1 ∧ (r.1 ≤ s.length ∨ r.1 = pos) := by
  intro f
  induction f with
  | zero => intro ic s re pos caps r h; simp [mrun] at h
  | succ f ih =>
    intro ic s re pos caps r h
    have hlt : ∀ x : Char, s[pos]? = some x → pos < s.length := by
      intro x hg
      by_contra hle
      rw [List.getElem?_eq_none (by omega)] at hg
      exact Option.noConfusion hg
    cases re with
    | eps =>
      simp only [mrun, List.mem_singleton] at h
      subst h
      exact ⟨le_refl _, Or.inr rfl⟩
    | ch c =>
      cases hg : s[pos]? with
      | none => simp [mrun, hg] at h
      | some x =>
        simp only [mrun, hg] at h
        by_cases hc : charEq ic c x = true
        · rw [if_pos hc] at h
          simp only [List.mem_singleton] at h
          subst h
          have := hlt x hg
          exact ⟨by omega, Or.inl (by omega)⟩
        · rw [if_neg hc] at h; simp at h
    | anyCh =>
      cases hg : s[pos]? with
      | none => simp [mrun, hg] at h
      | some x =>
        simp only [mrun, hg] at h
        by_cases hc : x = '\n'
        · rw [if_pos hc] at h; simp at h
        · rw [if_neg hc] at h
          simp only [List.mem_singleton] at h
          subst h
          have := hlt x hg
          exact ⟨by omega, Or.inl (by omega)⟩
    | cls neg items =>
      cases hg : s[pos]? with
      | none => simp [mrun, hg] at h
      | some x =>
        simp only [mrun, hg] at h
        by_cases hc : clsMatches ic neg items x = true
        · rw [if_pos hc] at h
          simp only [List.mem_singleton] at h
          subst h
          have := hlt x hg
          exact ⟨by omega, Or.inl (by omega)⟩
        · rw [if_neg hc] at h; simp at h
    | seq a b =>
      simp only [mrun, List.mem_flatMap] at h
      obtain ⟨r1, hr1, hr⟩ := h
      have h1 := ih ic s a pos caps r1 hr1
      have h2 := ih ic s b r1.1 r1.2 r hr
      omega
    | alt a b =>
      simp only [mrun, List.mem_append] at h
      rcases h with h | h
      · exact ih ic s a pos caps r h
      · exact ih ic s b pos caps r h
    | star e =>
      simp only [mrun, List.mem_append, List.mem_flatMap, List.mem_singleton] at h
      rcases h with ⟨r1, hr1, hrec⟩ | h
      · have h1 := ih ic s e pos caps r1 hr1
        by_cases hp : pos < r1.1
        · rw [if_pos hp] at hrec
          have h2 := ih ic s (.star e) r1.1 r1.2 r hrec
          omega
        · rw [if_neg hp] at hrec; simp at hrec
      · subst h
        exact ⟨le_refl _, Or.inr rfl⟩
    | group i e =>
      simp only [mrun, List.mem_map] at h
      obtain ⟨r1, hr1, hr⟩ := h
      have h1 := ih ic s e pos caps r1 hr1
      rw [← hr]
      exact h1
    | startA =>
      simp only [mrun] at h
      by_cases hp : pos = 0
      · rw [if_pos hp] at h
        simp only [List.mem_singleton] at h
        subst h
        exact ⟨le_refl _, Or.inr rfl⟩
      · rw [if_neg hp] at h; simp at h
    | endA =>
      simp only [mrun] at h
      by_cases hp : pos = s.length
      · rw [if_pos hp] at h
        simp only [List.mem_singleton] at h
        subst h
        exact ⟨le_refl _, Or.inr rfl⟩
      · rw [if_neg hp] at h; simp at h

/-- A successful search yields a span starting at or after the requested
offset and lying within the text. -/
theorem searchLoop_some_bounds (cp : CompiledRE) (s : Str) :
    ∀ (f pos st en : Nat) (caps : Caps),
      searchLoop cp s f pos = some (st, en, caps) →
      pos ≤ st ∧ st ≤ en ∧ en ≤ s.length := by
  intro f
  induction f with
  | zero => intro pos st en caps h; simp [searchLoop] at h
  | succ f ih =>
    intro pos st en caps h
    simp only [searchLoop] at h
    by_cases hp : pos > s.length
    · rw [if_pos hp] at h; simp at h
    · rw [if_neg hp] at h
      cases hm : engineMatchAt cp s pos with
      | some r =>
        rw [hm] at h
        simp only [Option.some.injEq, Prod.mk.injEq] at h
        obtain ⟨hst, hen, _⟩ := h
        have hmem : r ∈ mrun (stdFuel cp.re s) cp.ic s cp.re pos [] := by
          unfold engineMatchAt at hm
          exact headMem hm
        have hb := mrun_mem_bounds (stdFuel cp.re s) cp.ic s cp.re pos [] r hmem
        omega
      | none =>
        rw [hm] at h
        have := ih (pos + 1) st en caps h
        omega

/-- `engineSearch` version of the span bounds. -/
theorem engineSearch_some_bounds (cp : CompiledRE) (s : Str) (pos st en : Nat)
    (caps : Caps) (h : engineSearch cp s pos = some (st, en, caps)) :
    pos ≤ st ∧ st ≤ en ∧ en ≤ s.length :=
  searchLoop_some_bounds cp s (s.length + 2) pos st en caps h

/-- The next scan offset lies past the match end, and strictly past the
match start. -/
theorem nextScanPos_lb (st en : Nat) (h : st ≤ en) :
    en ≤ nextScanPos st en ∧ st < nextScanPos st en := by
  unfold nextScanPos
  split <;> omega

/-- Every match produced by the scan starts at or after the scan offset and
has an in-bounds, well-ordered span. -/
theorem finditerLoop_mem_bounds (cp : CompiledRE) (s : Str) :
    ∀ (f pos : Nat) (m : Nat × Nat × Caps), m ∈ finditerLoop cp s f pos →
      pos ≤ m.1 ∧ m.1 ≤ m.2.1 ∧ m.2.1 ≤ s.length := by
  intro f
  induction f with
  | zero => intro pos m h; simp [finditerLoop] at h
  | succ f ih =>
    intro pos m h
    simp only [finditerLoop] at h
    cases hs : engineSearch cp s pos with
    | none => rw [hs] at h; simp at h
    | some m0 =>
      obtain ⟨st, en, cps⟩ := m0
      rw [hs] at h
      simp only [List.mem_cons] at h
      have hb := engineSearch_some_bounds cp s pos st en cps hs
      have hnext := nextScanPos_lb st en hb.2.1
      rcases h with h | h
      · subst h; exact ⟨hb.1, hb.2.1, hb.2.2⟩
      · have := ih (nextScanPos st en) m h
        omega

/-- The scan produces at most one match per remaining text position plus
one. -/
theorem finditerLoop_length (cp : CompiledRE) (s : Str) :
    ∀ (f pos : Nat), (finditerLoop cp s f pos).length ≤ s.length + 1 - pos := by
  intro f
  induction f with
  | zero => intro pos; simp [finditerLoop]
  | succ f ih =>
    intro pos
    simp only [finditerLoop]
    cases hs : engineSearch cp s pos with
    | none => simp
    | some m0 =>
      obtain ⟨st, en, cps⟩ := m0
      have hb := engineSearch_some_bounds cp s pos st en cps hs
      have hnext := nextScanPos_lb st en hb.2.1
      have := ih (nextScanPos st en)
      simp only [List.length_cons]
      omega

/-- Consecutive matches of the scan never overlap, and a zero-length match
is followed only by strictly later starts. -/
theorem finditerLoop_chain (cp : CompiledRE) (s : Str) :
    ∀ (f pos : Nat),
      List.Chain' (fun a b : Nat × Nat × Caps =>
        a.2.1 ≤ b.1 ∧ (a.1 = a.2.1 → a.2.1 < b.1)) (finditerLoop cp s f pos) := by
  intro f
  induction f with
  | zero => intro pos; simp [finditerLoop]
  | succ f ih =>
    intro pos
    simp only [finditerLoop]
    cases hs : engineSearch cp s pos with
    | none => simp
    | some m0 =>
      obtain ⟨st, en, cps⟩ := m0
      rw [List.chain'_cons']
      refine ⟨?_, ih (nextScanPos st en)⟩
      intro b hb
      have hmem := headMem hb
      have hbounds := finditerLoop_mem_bounds cp s f (nextScanPos st en) b hmem
      have hb2 := engineSearch_some_bounds cp s pos st en cps hs
      show en ≤ b.1 ∧ (st = en → en < b.1)
      constructor
      · have := (nextScanPos_lb st en hb2.2.1).1
        omega
      · intro heq
        have : nextScanPos st en = en + 1 := by
          unfold nextScanPos
          rw [if_neg (by omega)]
        omega

/-! ### C9: `find_iter` termination and advancement -/

/-- C9: for every pattern and every finite text, iterating all matches via
`find_iter` terminates (in this model the scan is a total function, made
terminating exactly by the zero-length-match rule of `nextScanPos`), the
matches are in-bounds and non-overlapping with advancing positions (a
zero-length match is followed only by strictly later starts), and at most
`text length + 1` matches are produced. -/
theorem c9_find_iter_scan (r : Regex) (s : Str) :
    List.Chain' (fun a b => a.end_ ≤ b.start ∧ (a.start = a.end_ → a.end_ < b.start))
      (r.find_iter s) ∧
    (r.find_iter s).length ≤ s.length + 1 ∧
    (∀ m ∈ r.find_iter s, m.start ≤ m.end_ ∧ m.end_ ≤ s.length) := by
  unfold Regex.find_iter engineMatches
  refine ⟨?_, ?_, ?_⟩
  · rw [List.chain'_map]
    refine (finditerLoop_chain r.compiled s (s.length + 2) 0).imp ?_
    intro a b hab
    simpa [mkMatch] using hab
  · rw [List.length_map]
    have := finditerLoop_length r.compiled s (s.length + 2) 0
    omega
  · intro m hm
    obtain ⟨raw, hraw, heq⟩ := List.mem_map.mp hm
    have := finditerLoop_mem_bounds r.compiled s (s.length + 2) 0 raw hraw
    subst heq
    simp only [mkMatch]
    omega

/-! ### C7: the normalized Match invariants -/

/-- Looking a declared name up in a keyed map built over the names list
finds exactly that name's image, provided names are not repeated. -/
theorem lookup_map_names {β : Type} (f : Nat → β) :
    ∀ (names : List (Str × Nat)) (nm : Str) (idx : Nat),
      (names.map Prod.fst).Nodup → (nm, idx) ∈ names →
      (names.map (fun ni => (ni.1, f ni.2))).lookup nm = some (f idx) := by
  intro names
  induction names with
  | nil => intro nm idx _ h; simp at h
  | cons hd tl ih =>
    intro nm idx hnd hmem
    rw [List.map_cons] at hnd
    have hnd2 := List.nodup_cons.mp hnd
    rcases List.mem_cons.mp hmem with heq | hmem2
    · rw [← heq]
      simp [List.lookup]
    · have hne : (nm == hd.1) = false := by
        rw [beq_eq_false_iff_ne]
        intro hcontra
        exact hnd2.1 (hcontra ▸ List.mem_map.mpr ⟨(nm, idx), hmem2, rfl⟩)
      simp only [List.map_cons, List.lookup, hne]
      exact ih nm idx hnd2.2 hmem2

/-- C7: every `Match` produced by a successful `match`, `search` or
`find_iter` step has `end ≥ start`, and its `groupdict` is an overlay of
the positional `groups`: for every declared group name, the groupdict entry
equals the groups entry at that name's declared position (the hypotheses
state the compiled pattern's name table is well-formed: no repeated names,
indices within the positional numbering). -/
theorem c7_match_normalization (r : Regex) (s : Str) (m : Match)
    (hnames : (r.compiled.names.map Prod.fst).Nodup)
    (hrange : ∀ ni ∈ r.compiled.names, 1 ≤ ni.2 ∧ ni.2 ≤ r.compiled.ngroups)
    (hm : r.match_ s = some m ∨ r.search s = some m ∨ m ∈ r.find_iter s) :
    m.start ≤ m.end_ ∧
    ∀ nm idx, (nm, idx) ∈ r.compiled.names →
      m.groupdict.lookup nm = m.groups[idx - 1]? := by
  have key : ∀ (st en : Nat) (caps : Caps), st ≤ en →
      m = mkMatch r.compiled s st en caps →
      m.start ≤ m.end_ ∧
      ∀ nm idx, (nm, idx) ∈ r.compiled.names →
        m.groupdict.lookup nm = m.groups[idx - 1]? := by
    intro st en caps hle heq
    subst heq
    refine ⟨hle, ?_⟩
    intro nm idx hmem
    have hidx := hrange (nm, idx) hmem
    simp only [mkMatch]
    rw [lookup_map_names (fun i => (capGet caps i).map (fun p => slice s p.1 p.2))
      r.compiled.names nm idx hnames hmem]
    rw [List.getElem?_map, List.getElem?_range (by omega)]
    simp only [Option.map_some']
    have : idx - 1 + 1 = idx := by omega
    rw [this]
  rcases hm with hm | hm | hm
  · unfold Regex.match_ at hm
    cases he : engineMatchAt r.compiled s 0 with
    | none => rw [he] at hm; simp at hm
    | some res =>
      rw [he] at hm
      simp only [Option.map_some', Option.some.injEq] at hm
      have hmem : res ∈ mrun (stdFuel r.compiled.re s) r.compiled.ic s r.compiled.re 0 [] := by
        unfold engineMatchAt at he
        exact headMem he
      have hb := mrun_mem_bounds (stdFuel r.compiled.re s) r.compiled.ic s r.compiled.re 0 [] res hmem
      exact key 0 res.1 res.2 (by omega) hm.symm
  · unfold Regex.search at hm
    cases he : engineSearch r.compiled s 0 with
    | none => rw [he] at hm; simp at hm
    | some res =>
      obtain ⟨st, en, cps⟩ := res
      rw [he] at hm
      simp only [Option.map_some', Option.some.injEq] at hm
      have hb := engineSearch_some_bounds r.compiled s 0 st en cps he
      exact key st en cps (by omega) hm.symm
  · unfold Regex.find_iter at hm
    obtain ⟨raw, hraw, heq⟩ := List.mem_map.mp hm
    have hb := finditerLoop_mem_bounds r.compiled s (s.length + 2) 0 raw hraw
    exact key raw.1 raw.2.1 raw.2.2 (by omega) heq.symm

/-- C7 witness: on the compiled pattern `(?P<x>a)(b)?` and the text `ab a`,
the first scan match satisfies both invariants, the groupdict entry for `x`
being the positional group 1 entry. -/
theorem c7_match_normalization_witness :
    ((((Regex.make (.inl ("(?P<x>a)(b)?").toList) 0).toOption.getD
        ⟨⟨[], 0, .eps, 0, []⟩, []⟩).find_iter ("ab a").toList).getD 0
        ⟨[], 0, 0, [], []⟩).start ≤
      ((((Regex.make (.inl ("(?P<x>a)(b)?").toList) 0).toOption.getD
        ⟨⟨[], 0, .eps, 0, []⟩, []⟩).find_iter ("ab a").toList).getD 0
        ⟨[], 0, 0, [], []⟩).end_ ∧
    ((((Regex.make (.inl ("(?P<x>a)(b)?").toList) 0).toOption.getD
        ⟨⟨[], 0, .eps, 0, []⟩, []⟩).find_iter ("ab a").toList).getD 0
        ⟨[], 0, 0, [], []⟩).groupdict.lookup ("x").toList =
      ((((Regex.make (.inl ("(?P<x>a)(b)?").toList) 0).toOption.getD
        ⟨⟨[], 0, .eps, 0, []⟩, []⟩).find_iter ("ab a").toList).getD 0
        ⟨[], 0, 0, [], []⟩).groups[0]? := by
  have h := c7_match_normalization
    ((Regex.make (.inl ("(?P<x>a)(b)?").toList) 0).toOption.getD
      ⟨⟨[], 0, .eps, 0, []⟩, []⟩)
    (("ab a").toList)
    ((((Regex.make (.inl ("(?P<x>a)(b)?").toList) 0).toOption.getD
        ⟨⟨[], 0, .eps, 0, []⟩, []⟩).find_iter ("ab a").toList).getD 0
        ⟨[], 0, 0, [], []⟩)
    (by decide) (by decide)
    (Or.inr (Or.inr (by decide)))
  exact ⟨h.1, h.2 (("x").toList) 1 (by decide)⟩

/-! ### C3: `find_all` result shapes -/

/-- `findall` is the `finditer` scan with each raw match shaped. -/
theorem findallLoop_eq_map (cp : CompiledRE) (s : Str) :
    ∀ (f pos : Nat), findallLoop cp s f pos =
      (finditerLoop cp s f pos).map (fun m => faItemOf cp s m.1 m.2.1 m.2.2) := by
  intro f
  induction f with
  | zero => intro pos; simp [findallLoop, finditerLoop]
  | succ f ih =>
    intro pos
    simp only [findallLoop, finditerLoop]
    cases hs : engineSearch cp s pos with
    | none => simp
    | some m0 => simp [ih]

/-- C3: `find_all` delegates to the engine scan, and its element shape is
determined by the number of capturing groups: with no groups each element
is the whole-match substring; with exactly one group it is that group's
substring (empty for a non-participating group); with several groups it is
the tuple of all the groups' substrings, all in the left-to-right order of
the non-overlapping `find_iter` scan. -/
theorem c3_find_all_shapes (r : Regex) (s : Str) :
    (r.compiled.ngroups = 0 →
       r.find_all s = (r.find_iter s).map (fun m => FAItem.str m.text)) ∧
    (r.compiled.ngroups = 1 →
       r.find_all s = (r.find_iter s).map
         (fun m => FAItem.str ((m.groups.getD 0 none).getD []))) ∧
    (2 ≤ r.compiled.ngroups →
       r.find_all s = (r.find_iter s).map
         (fun m => FAItem.tup (m.groups.map (fun o => o.getD [])))) := by
  unfold Regex.find_all Regex.find_iter engineFindall engineMatches
  rw [findallLoop_eq_map]
  simp only [List.map_map]
  refine ⟨?_, ?_, ?_⟩
  · intro h
    apply List.map_congr_left
    intro raw _
    simp only [Function.comp, faItemOf, mkMatch, h]
    rfl
  · intro h
    apply List.map_congr_left
    intro raw _
    simp only [Function.comp, faItemOf, mkMatch, h]
    rfl
  · intro h
    apply List.map_congr_left
    intro raw _
    have h0 : r.compiled.ngroups ≠ 0 := by omega
    have h1 : r.compiled.ngroups ≠ 1 := by omega
    simp only [Function.comp, faItemOf, mkMatch, if_neg h0, if_neg h1, List.map_map]
    rfl

/-- C3 witness: the three shapes at concrete patterns — `x*` (no group) on
`xab`, `(a)?b` (one group) on `b`, `(a)|(b)` (two groups) on `ab`. -/
theorem c3_find_all_shapes_witness :
    (((Regex.make (.inl ("x*").toList) 0).toOption.getD
        ⟨⟨[], 0, .eps, 0, []⟩, []⟩).find_all ("xab").toList =
      ((((Regex.make (.inl ("x*").toList) 0).toOption.getD
        ⟨⟨[], 0, .eps, 0, []⟩, []⟩).find_iter ("xab").toList).map
        (fun m => FAItem.str m.text))) ∧
    (((Regex.make (.inl ("(a)?b").toList) 0).toOption.getD
        ⟨⟨[], 0, .eps, 0, []⟩, []⟩).find_all ("b").toList =
      ((((Regex.make (.inl ("(a)?b").toList) 0).toOption.getD
        ⟨⟨[], 0, .eps, 0, []⟩, []⟩).find_iter ("b").toList).map
        (fun m => FAItem.str ((m.groups.getD 0 none).getD [])))) ∧
    (((Regex.make (.inl ("(a)|(b)").toList) 0).toOption.getD
        ⟨⟨[], 0, .eps, 0, []⟩, []⟩).find_all ("ab").toList =
      ((((Regex.make (.inl ("(a)|(b)").toList) 0).toOption.getD
        ⟨⟨[], 0, .eps, 0, []⟩, []⟩).find_iter ("ab").toList).map
        (fun m => FAItem.tup (m.groups.map (fun o => o.getD []))))) :=
  ⟨(c3_find_all_shapes _ _).1 (by decide),
   (c3_find_all_shapes _ _).2.1 (by decide),
   (c3_find_all_shapes _ _).2.2 (by decide)⟩

/-! ### C8: split round trip -/

/-- Adjacent slices concatenate. -/
theorem slice_append (s : Str) (a b c : Nat) (hab : a ≤ b) (hbc : b ≤ c) :
    slice s a b ++ slice s b c = slice s a c := by
  unfold slice
  have hsplit : c - a = (b - a) + (c - b) := by omega
  rw [hsplit, List.take_add, List.drop_drop]
  rw [show a + (b - a) = b from by omega]

/-- The final slice is the remaining suffix. -/
theorem slice_to_length (s : Str) (a : Nat) : slice s a s.length = s.drop a := by
  unfold slice
  exact List.take_of_length_le (by simp)

/-- With no capturing groups, rejoining the split segments with the scan's
matched substrings rebuilds the suffix the scan covers. -/
theorem splitLoop_join (cp : CompiledRE) (s : Str) (h0 : cp.ngroups = 0) :
    ∀ (f pos segStart n : Nat), segStart ≤ pos →
      interleave
        ((splitLoop cp s 0 f pos segStart n).map (fun o => o.getD []))
        ((finditerLoop cp s f pos).map (fun m => slice s m.1 m.2.1)) =
      slice s segStart s.length := by
  intro f
  induction f with
  | zero =>
    intro pos segStart n _
    simp [splitLoop, finditerLoop, interleave]
  | succ f ih =>
    intro pos segStart n hseg
    simp only [splitLoop, finditerLoop]
    rw [if_neg (by simp)]
    cases hs : engineSearch cp s pos with
    | none => simp [interleave]
    | some m0 =>
      obtain ⟨st, en, cps⟩ := m0
      have hb := engineSearch_some_bounds cp s pos st en cps hs
      have hnext := nextScanPos_lb st en hb.2.1
      have hgi : splitGroupItems cp s cps = [] := by
        simp [splitGroupItems, h0]
      dsimp only
      rw [hgi]
      simp only [List.append_eq, List.nil_append, List.map_cons, Option.getD_some, interleave]
      rw [ih (nextScanPos st en) en (n + 1) (by omega)]
      rw [List.append_assoc]
      rw [slice_append s st en s.length hb.2.1 hb.2.2]
      rw [slice_append s segStart st s.length (by omega) (by omega)]

/-- C8 amended: for every pattern with no capturing groups (and unbounded
splitting, the default), interleaving the segments returned by `split` with
the substrings actually matched by the splitting pattern reconstructs the
original text exactly. -/
theorem c8_split_round_trip (r : Regex) (s : Str) (h0 : r.compiled.ngroups = 0) :
    interleave ((r.split s 0).map (fun o => o.getD []))
      ((r.find_iter s).map (fun m => m.text)) = s := by
  unfold Regex.split Regex.find_iter engineSplit engineMatches
  have h := splitLoop_join r.compiled s h0 (s.length + 2) 0 0 0 (le_refl 0)
  rw [List.map_map]
  have hcomp : ((fun m : Match => m.text) ∘
      fun m : Nat × Nat × Caps => mkMatch r.compiled s m.1 m.2.1 m.2.2) =
      fun m : Nat × Nat × Caps => slice s m.1 m.2.1 := rfl
  rw [hcomp, h, slice_to_length, List.drop_zero]

/-- C8 witness: splitting `axbxc` by `x*` (which also produces zero-length
delimiters) and interleaving with the matched delimiters rebuilds
`axbxc`. -/
theorem c8_split_round_trip_witness :
    interleave ((((Regex.make (.inl ("x*").toList) 0).toOption.getD
        ⟨⟨[], 0, .eps, 0, []⟩, []⟩).split ("axbxc").toList 0).map (fun o => o.getD []))
      ((((Regex.make (.inl ("x*").toList) 0).toOption.getD
        ⟨⟨[], 0, .eps, 0, []⟩, []⟩).find_iter ("axbxc").toList).map (fun m => m.text)) =
      ("axbxc").toList :=
  c8_split_round_trip _ _ (by decide)

/-- C8 counterexample: with a capturing group in the splitting pattern —
`(,)` on `a,b` — `split` interleaves the captured text into its result, so
rejoining the returned segments with the actually matched delimiters yields
`a,,b`, not the original `a,b`. -/
theorem c8_capture_group_breaks_round_trip :
    (Regex.make (.inl ("(,)").toList) 0).map (fun r =>
      interleave ((r.split ("a,b").toList 0).map (fun o => o.getD []))
        ((r.find_iter ("a,b").toList).map (fun m => m.text))) =
      .ok ("a,,b").toList ∧
    ("a,,b").toList ≠ ("a,b").toList :=
  ⟨by decide, by decide⟩

/-! ### C4: the literal composer operation -/

/-- Every escapable metacharacter tokenizes, after its backslash, to a
literal character token. -/
theorem escTok_special : ∀ c ∈ specialChars, escTok c = .ok (.tchar c) := by decide

/-- A character outside the escape set differs from every character in
it. -/
theorem not_special_ne (c x : Char) (hx : x ∈ specialChars)
    (hc : c ∉ specialChars) : ¬(c = x) :=
  fun h => hc (h ▸ hx)

/-- Tokenizing at least one fuel unit of nothing yields no tokens. -/
theorem tokenize_nil (g : Nat) (h : 1 ≤ g) : tokenize g [] = .ok [] := by
  cases g with
  | zero => omega
  | succ g => simp [tokenize]

/-- Tokenizing the escaped form of a text produces one literal character
token per character, consuming one fuel unit each, whatever follows. -/
theorem tokenize_escape :
    ∀ (L : Str) (f : Nat) (rest : List Char), L.length ≤ f →
      tokenize f (reEscape L ++ rest) =
        (tokenize (f - L.length) rest).map (fun ts => L.map Tok.tchar ++ ts) := by
  intro L
  induction L with
  | nil =>
    intro f rest _
    simp only [reEscape, List.flatMap_nil, List.nil_append, List.map_nil, Nat.sub_zero]
    cases h : tokenize f rest <;> simp [Except.map, h]
  | cons c L' ih =>
    intro f rest hf
    simp only [List.length_cons] at hf
    obtain ⟨f0, rfl⟩ : ∃ f0, f = f0 + 1 := ⟨f - 1, by omega⟩
    have harith : f0 + 1 - (L'.length + 1) = f0 - L'.length := by omega
    by_cases hc : c ∈ specialChars
    · have hesc : reEscape (c :: L') = '\\' :: c :: reEscape L' := by
        simp [reEscape, hc]
      rw [hesc]
      have hbs : (('\\' : Char) = '\\') = True := by simp
      simp only [List.cons_append, tokenize, hbs, if_true, List.append_eq]
      rw [escTok_special c hc]
      rw [ih f0 rest (by omega)]
      simp only [List.length_cons, harith]
      cases h : tokenize (f0 - L'.length) rest <;> simp [Except.map, h]
    · have hesc : reEscape (c :: L') = c :: reEscape L' := by
        simp [reEscape, hc]
      rw [hesc]
      have h1 := not_special_ne c '\\' (by decide) hc
      have h2 := not_special_ne c '[' (by decide) hc
      have h3 := not_special_ne c '(' (by decide) hc
      have h4 := not_special_ne c ')' (by decide) hc
      have h5 := not_special_ne c '|' (by decide) hc
      have h6 := not_special_ne c '*' (by decide) hc
      have h7 := not_special_ne c '+' (by decide) hc
      have h8 := not_special_ne c '?' (by decide) hc
      have h9 := not_special_ne c '.' (by decide) hc
      have h10 := not_special_ne c '^' (by decide) hc
      have h11 := not_special_ne c '$' (by decide) hc
      have h12 := not_special_ne c '\x7b' (by decide) hc
      simp only [List.cons_append, tokenize, if_neg h1, if_neg h2, if_neg h3, if_neg h4,
        if_neg h5, if_neg h6, if_neg h7, if_neg h8, if_neg h9, if_neg h10, if_neg h11,
        if_neg h12, List.append_eq]
      rw [ih f0 rest (by omega)]
      simp only [List.length_cons, harith]
      cases h : tokenize (f0 - L'.length) rest <;> simp [Except.map, h]

/-- Literal character tokens simply accumulate atoms onto the current
sequence. -/
theorem parseLoop_tchars :
    ∀ (l : List Char) (ts : List Tok) (st : PState),
      parseLoop (l.map Tok.tchar ++ ts) st =
        parseLoop ts { st with cur := (l.map RE.ch).reverse ++ st.cur } := by
  intro l
  induction l with
  | nil => intro ts st; simp
  | cons c l' ih =>
    intro ts st
    simp only [List.map_cons, List.cons_append, parseLoop, List.append_eq]
    rw [ih ts { st with cur := RE.ch c :: st.cur }]
    simp [List.append_assoc]

/-- Parsing the escaped form of a text yields exactly the literal pattern,
with no groups and no names. -/
theorem parsePattern_escape (L : Str) :
    parsePattern (reEscape L) = .ok (litRE L, 0, []) := by
  unfold parsePattern
  have hlen : ∀ M : Str, M.length ≤ (reEscape M).length := by
    intro M
    induction M with
    | nil => simp [reEscape]
    | cons c M' ihm =>
      by_cases hc : c ∈ specialChars
      · have hx : reEscape (c :: M') = '\\' :: c :: reEscape M' := by simp [reEscape, hc]
        rw [hx]
        simp only [List.length_cons]
        omega
      · have hx : reEscape (c :: M') = c :: reEscape M' := by simp [reEscape, hc]
        rw [hx]
        simp only [List.length_cons]
        omega
  have happ := tokenize_escape L ((reEscape L).length + 1) [] (by have := hlen L; omega)
  rw [List.append_nil] at happ
  rw [happ, tokenize_nil _ (by have := hlen L; omega)]
  simp only [Except.map, List.append_nil]
  have hpl := parseLoop_tchars L [] pInit
  rw [List.append_nil] at hpl
  rw [hpl]
  simp [parseLoop, pInit, finishAlts, altList, litRE, seqList]

/-- Compiling the escaped form of a text succeeds with the literal
pattern. -/
theorem engineCompile_escape (L : Str) (flags : Nat) :
    engineCompile (reEscape L) flags = .ok ⟨reEscape L, flags, litRE L, 0, []⟩ := by
  unfold engineCompile
  rw [parsePattern_escape]
  simp [hasDup]

/-- The matcher on the literal pattern: it consumes exactly the literal
when the text continues with it, and fails otherwise. -/
theorem mrun_lit :
    ∀ (L : Str) (f : Nat) (s : Str) (pos : Nat) (caps : Caps), L.length < f →
      mrun f false s (litRE L) pos caps =
        if (s.drop pos).take L.length = L then [(pos + L.length, caps)] else [] := by
  intro L
  induction L with
  | nil =>
    intro f s pos caps hf
    obtain ⟨f0, rfl⟩ : ∃ f0, f = f0 + 1 := ⟨f - 1, by omega⟩
    simp [litRE, seqList, mrun]
  | cons c L' ih =>
    intro f s pos caps hf
    simp only [List.length_cons] at hf
    obtain ⟨f0, rfl⟩ : ∃ f0, f = f0 + 1 := ⟨f - 1, by omega⟩
    obtain ⟨f1, rfl⟩ : ∃ f1, f0 = f1 + 1 := ⟨f0 - 1, by omega⟩
    show mrun (f1 + 1 + 1) false s (.seq (.ch c) (litRE L')) pos caps = _
    have hseq : mrun (f1 + 1 + 1) false s (.seq (.ch c) (litRE L')) pos caps =
        (mrun (f1 + 1) false s (.ch c) pos caps).flatMap
          (fun r => mrun (f1 + 1) false s (litRE L') r.1 r.2) := rfl
    rw [hseq]
    cases hg : s[pos]? with
    | none =>
      have hch : mrun (f1 + 1) false s (.ch c) pos caps = [] := by
        simp [mrun, hg]
      have hdrop : s.drop pos = [] :=
        List.drop_eq_nil_of_le (List.getElem?_eq_none_iff.mp hg)
      rw [hch]
      simp [hdrop]
    | some x =>
      have hp := List.getElem?_eq_some.mp hg
      have hdrop : s.drop pos = x :: s.drop (pos + 1) := by
        rw [List.drop_eq_getElem_cons hp.1, hp.2]
      by_cases hcx : c = x
      · have hch : mrun (f1 + 1) false s (.ch c) pos caps = [(pos + 1, caps)] := by
          simp [mrun, hg, charEq, hcx]
        rw [hch]
        simp only [List.flatMap_cons, List.flatMap_nil, List.append_nil]
        rw [ih (f1 + 1) s (pos + 1) caps (by omega)]
        rw [hdrop]
        subst hcx
        simp only [List.length_cons, List.take_succ_cons, List.cons.injEq, true_and]
        by_cases htk : (s.drop (pos + 1)).take L'.length = L'
        · rw [if_pos htk, if_pos htk]
          have harith2 : pos + 1 + L'.length = pos + (L'.length + 1) := by omega
          rw [harith2]
        · rw [if_neg htk, if_neg htk]
      · have hch : mrun (f1 + 1) false s (.ch c) pos caps = [] := by
          simp [mrun, hg, charEq, hcx]
        rw [hch]
        simp only [List.flatMap_nil]
        rw [hdrop]
        have hcond : ¬((x :: s.drop (pos + 1)).take (c :: L').length = c :: L') := by
          simp only [List.length_cons, List.take_succ_cons, List.cons.injEq]
          intro hcontra
          exact hcx (hcontra.1.symm)
        rw [if_neg hcond]

/-- Size of the literal pattern. -/
theorem reSize_litRE (L : Str) : reSize (litRE L) = 2 * L.length + 1 := by
  induction L with
  | nil => simp [litRE, seqList, reSize]
  | cons c L' ih =>
    show reSize (.seq (.ch c) (litRE L')) = _
    simp only [reSize, ih, List.length_cons]
    omega

/-- C4: for every literal text `L` (empty, metacharacter-laden or
otherwise) the pattern built by `literal(L)` alone compiles, and used as a
full match it accepts exactly the text equal to `L` and rejects every other
text. -/
theorem c4_literal_exact (L t : Str) :
    ∃ cp, (RegexBuilder.new.literal L).build = .ok cp ∧
      ((Regex.mk cp cp.src).is_full_match t = true ↔ t = L) := by
  refine ⟨⟨reEscape L, 0, litRE L, 0, []⟩, ?_, ?_⟩
  · have hparts : (RegexBuilder.new.literal L).parts = [reEscape L] := by
      simp [RegexBuilder.new, RegexBuilder.literal]
    unfold RegexBuilder.build
    rw [hparts]
    have hfl : ([reEscape L] : List Str).flatten = reEscape L := by simp
    rw [hfl]
    exact engineCompile_escape L 0
  · unfold Regex.is_full_match engineFullmatch
    have hic : CompiledRE.ic ⟨reEscape L, 0, litRE L, 0, []⟩ = false := by
      show (Nat.land 0 2 != 0) = false
      decide
    rw [hic]
    have hfuel : L.length < stdFuel (litRE L) t := by
      unfold stdFuel
      rw [reSize_litRE]
      calc L.length < 2 * L.length + 1 + 1 := by omega
        _ ≤ (2 * L.length + 1 + 1) * (t.length + 2) :=
              Nat.le_mul_of_pos_right _ (by omega)
    rw [mrun_lit L (stdFuel (litRE L) t) t 0 [] hfuel]
    simp only [List.drop_zero]
    by_cases h : t.take L.length = L
    · rw [if_pos h]
      simp only [List.any_cons, List.any_nil, Bool.or_false, Nat.zero_add,
        decide_eq_true_eq]
      constructor
      · intro hlen
        rw [hlen, List.take_length] at h
        exact h
      · intro ht
        subst ht
        rfl
    · rw [if_neg h]
      simp only [List.any_nil, Bool.false_eq_true, false_iff]
      intro ht
      subst ht
      exact h (List.take_length t)

/-! ### C2 (amended half): duplicate group names make `build` fail -/

/-- The span loop runs through a satisfying prefix and stops at the first
failing element. -/
theorem spanLoop_exact (p : Char → Bool) :
    ∀ (l1 : List Char) (x : Char) (l2 acc : List Char),
      (∀ c ∈ l1, p c = true) → p x = false →
      List.span.loop p (l1 ++ x :: l2) acc = (acc.reverse ++ l1, x :: l2) := by
  intro l1
  induction l1 with
  | nil =>
    intro x l2 acc _ hx
    simp [List.span.loop, hx]
  | cons c l1' ih =>
    intro x l2 acc hall hx
    have hc := hall c (List.mem_cons_self c l1')
    simp only [List.cons_append, List.span.loop, hc, if_true, List.append_eq]
    rw [ih x l2 (c :: acc) (fun d hd => hall d (List.mem_cons_of_mem c hd)) hx]
    simp

/-- `span` splits a satisfying prefix from the stopping element on. -/
theorem span_exact (p : Char → Bool) (l1 : List Char) (x : Char) (l2 : List Char)
    (hall : ∀ c ∈ l1, p c = true) (hx : p x = false) :
    (l1 ++ x :: l2).span p = (l1, x :: l2) := by
  unfold List.span
  rw [spanLoop_exact p l1 x l2 [] hall hx]
  simp

/-- Escaping text made of non-metacharacters leaves it unchanged. -/
theorem reEscape_plain (l : Str) (hl : ∀ c ∈ l, c ∉ specialChars) : reEscape l = l := by
  induction l with
  | nil => simp [reEscape]
  | cons c l' ih =>
    have hc := hl c (List.mem_cons_self c l')
    have : reEscape (c :: l') = c :: reEscape l' := by simp [reEscape, hc]
    rw [this, ih (fun d hd => hl d (List.mem_cons_of_mem c hd))]

/-- Plain non-metacharacter text tokenizes to one literal token per
character. -/
theorem tokenize_plain (l : Str) (hl : ∀ c ∈ l, c ∉ specialChars) (f : Nat)
    (rest : List Char) (hf : l.length ≤ f) :
    tokenize f (l ++ rest) =
      (tokenize (f - l.length) rest).map (fun ts => l.map Tok.tchar ++ ts) := by
  rw [show l ++ rest = reEscape l ++ rest from by rw [reEscape_plain l hl]]
  exact tokenize_escape l f rest hf

/-- A closing parenthesis tokenizes to one `tclose` token. -/
theorem tokenize_close (f : Nat) (rest : List Char) (hf : 1 ≤ f) :
    tokenize f (')' :: rest) = (tokenize (f - 1) rest).map (fun ts => .tclose :: ts) := by
  obtain ⟨f0, rfl⟩ : ∃ f0, f = f0 + 1 := ⟨f - 1, by omega⟩
  simp only [tokenize]
  norm_num
  cases h : tokenize f0 rest <;> simp [Except.map, h]

/-- A named-group opener `(?P<name>` tokenizes to one `topennamed`
token. -/
theorem tokenize_named_open (nm : Str) (hne : nm.isEmpty = false)
    (hw : ∀ c ∈ nm, ¬(c = '>')) (f : Nat) (rest : List Char) (hf : 1 ≤ f) :
    tokenize f ('(' :: '?' :: 'P' :: '<' :: (nm ++ '>' :: rest)) =
      (tokenize (f - 1) rest).map (fun ts => .topennamed nm :: ts) := by
  obtain ⟨f0, rfl⟩ : ∃ f0, f = f0 + 1 := ⟨f - 1, by omega⟩
  simp only [tokenize]
  simp only [show (('(' : Char) = '\\') = False from by decide,
    show (('(' : Char) = '[') = False from by decide,
    show (('(' : Char) = '(') = True from by decide, if_false, if_true]
  simp only [openTok]
  rw [span_exact (fun c => decide (c ≠ '>')) nm '>' rest
    (fun c hc => by simp [hw c hc]) (by simp)]
  cases h : tokenize f0 rest <;> simp [Except.map, h, hne]

/-- Tokenizing two concatenated same-named groups with plain bodies. -/
theorem tokenize_two_named_groups (nm s1 s2 : Str)
    (hne : nm.isEmpty = false) (hw : ∀ c ∈ nm, ¬(c = '>'))
    (h1 : ∀ c ∈ s1, c ∉ specialChars) (h2 : ∀ c ∈ s2, c ∉ specialChars)
    (f : Nat) (hf : s1.length + s2.length + 6 ≤ f) :
    tokenize f
      ('(' :: '?' :: 'P' :: '<' :: (nm ++ '>' :: (s1 ++ ')' ::
        ('(' :: '?' :: 'P' :: '<' :: (nm ++ '>' :: (s2 ++ [')'])))))) =
      .ok (.topennamed nm :: (s1.map Tok.tchar ++ (.tclose :: .topennamed nm ::
        (s2.map Tok.tchar ++ [.tclose])))) := by
  rw [tokenize_named_open nm hne hw f _ (by omega)]
  rw [show s1 ++ ')' :: ('(' :: '?' :: 'P' :: '<' :: (nm ++ '>' :: (s2 ++ [')']))) =
      s1 ++ (')' :: ('(' :: '?' :: 'P' :: '<' :: (nm ++ '>' :: (s2 ++ [')'])))) from rfl]
  rw [tokenize_plain s1 h1 (f - 1) _ (by omega)]
  rw [tokenize_close (f - 1 - s1.length) _ (by omega)]
  rw [tokenize_named_open nm hne hw (f - 1 - s1.length - 1) _ (by omega)]
  rw [show s2 ++ [')'] = s2 ++ (')' :: ([] : List Char)) from rfl]
  rw [tokenize_plain s2 h2 (f - 1 - s1.length - 1 - 1) _ (by omega)]
  rw [tokenize_close (f - 1 - s1.length - 1 - 1 - s2.length) _ (by omega)]
  rw [tokenize_nil _ (by omega)]
  simp [Except.map]

/-- Parsing the token stream of two same-named groups records the name at
both group indices 1 and 2. -/
theorem parseLoop_two_named_groups (nm s1 s2 : Str) :
    parseLoop (.topennamed nm :: (s1.map Tok.tchar ++ (.tclose :: .topennamed nm ::
        (s2.map Tok.tchar ++ [.tclose])))) pInit =
      .ok (finishAlts []
             [RE.group 2 (finishAlts [] (s2.map RE.ch).reverse),
              RE.group 1 (finishAlts [] (s1.map RE.ch).reverse)],
           2, [(nm, 1), (nm, 2)]) := by
  simp only [parseLoop, pInit]
  rw [parseLoop_tchars s1]
  simp only [parseLoop, List.append_nil]
  rw [parseLoop_tchars s2]
  simp only [parseLoop, List.append_nil]
  simp

/-- C2 amended: calling `group` twice with the same (well-formed) name on
one composer makes the subsequent `build()` fail — but the failure is the
engine's generic compile error (`re.error: redefinition of group name`),
the only error condition the code has, not a distinct `DuplicateGroupName`
error.  Group bodies here are plain literal fragments, and the repeated
name is a nonempty run of word characters. -/
theorem c2_duplicate_group_name_build_fails (nm s1 s2 : Str)
    (hne : nm ≠ []) (hw : ∀ c ∈ nm, isWordCh c = true)
    (h1 : ∀ c ∈ s1, c ∉ specialChars) (h2 : ∀ c ∈ s2, c ∉ specialChars) :
    ((RegexBuilder.new.group s1 (some nm)).group s2 (some nm)).build =
      .error (.compileError "redefinition of group name") := by
  have hnee : nm.isEmpty = false := by
    cases nm with
    | nil => exact absurd rfl hne
    | cons a l => rfl
  have hgt : ∀ c ∈ nm, ¬(c = '>') := by
    intro c hc heq
    have hh := hw c hc
    rw [heq] at hh
    exact absurd hh (by decide)
  have hparts : ((RegexBuilder.new.group s1 (some nm)).group s2 (some nm)).parts =
      [['(', '?', 'P', '<'] ++ nm ++ ['>'] ++ s1 ++ [')'],
       ['(', '?', 'P', '<'] ++ nm ++ ['>'] ++ s2 ++ [')']] := by
    simp [RegexBuilder.new, RegexBuilder.group, hnee]
  have hflags : ((RegexBuilder.new.group s1 (some nm)).group s2 (some nm)).flags = 0 := by
    simp [RegexBuilder.new, RegexBuilder.group, hnee]
  unfold RegexBuilder.build
  rw [hparts, hflags]
  have hsrc : ([['(', '?', 'P', '<'] ++ nm ++ ['>'] ++ s1 ++ [')'],
       ['(', '?', 'P', '<'] ++ nm ++ ['>'] ++ s2 ++ [')']] : List Str).flatten =
      '(' :: '?' :: 'P' :: '<' :: (nm ++ '>' :: (s1 ++ ')' ::
        ('(' :: '?' :: 'P' :: '<' :: (nm ++ '>' :: (s2 ++ [')']))))) := by
    simp
  rw [hsrc]
  unfold engineCompile parsePattern
  rw [tokenize_two_named_groups nm s1 s2 hnee hgt h1 h2 _ (by simp; omega)]
  dsimp only
  rw [parseLoop_two_named_groups nm s1 s2]
  simp [hasDup]

/-- C2 witness for the amended claim: two groups named `y` with bodies `p`
and `q` make `build()` fail with the generic compile error. -/
theorem c2_duplicate_group_name_build_fails_witness :
    ((RegexBuilder.new.group ("p").toList (some ("y").toList)).group ("q").toList
      (some ("y").toList)).build =
      .error (.compileError "redefinition of group name") :=
  c2_duplicate_group_name_build_fails ("y").toList ("p").toList ("q").toList
    (by decide) (by decide) (by decide) (by decide)

end RoadRegex
